import Mathlib

/-!
Verification development for the tree-based AMR load balancer
(TreeLoadBalancer.h, BalanceBoxBreaker.h).

The C++ headers are shallowly embedded: axis-aligned integer boxes become
lists of (lower, upper) bounds per axis; the C++ type LoadType (double) is
modelled by exact integer arithmetic, which is faithful for the uniform
load model where every load is a cell count; the std::set based TransitSet
becomes an ordered list plus a cached sum, with the standard library set
semantics (an insertion is dropped exactly when an element equivalent
under the comparator is already present).
-/

namespace SAMRAIMesh

/-- Model of the C++ LoadType (double): exact integer arithmetic. -/
abbrev LoadType := Int

/-- Model of hier::Box: per-axis (lower, upper) closed integer bounds plus
the owner rank and local id that make up the global BoxId. -/
structure Box where
  bounds : List (Int × Int)
  owner : Int
  lid : Int
deriving DecidableEq

/-- Product of clamped axis widths, the cell count of a box (0 when some
axis is empty), as computed by hier::Box::size. -/
def sizeAux : List (Int × Int) → Int
  | [] => 1
  | q :: qs => max 0 (q.2 - q.1 + 1) * sizeAux qs

/-- Cell count of a box (hier::Box::size). -/
def Box.size (b : Box) : Int :=
  sizeAux b.bounds

/-- Dimension of a box. -/
def Box.dim (b : Box) : Nat :=
  b.bounds.length

/-- Whether a point (cell index) lies within per-axis bounds; false when
the dimensions disagree. -/
def inCells : List Int → List (Int × Int) → Bool
  | [], [] => true
  | x :: xs, q :: qs => decide (q.1 ≤ x) && decide (x ≤ q.2) && inCells xs qs
  | _, _ => false

/-- Whether a box contains a given cell. -/
def Box.hasCell (b : Box) (p : List Int) : Bool :=
  inCells p b.bounds

/-- The integers from l to h inclusive. -/
def intRange (l h : Int) : List Int :=
  (List.range (h + 1 - l).toNat).map (fun n : Nat => l + (n : Int))

/-- Enumerate the cells inside per-axis bounds. -/
def cellsAux : List (Int × Int) → List (List Int)
  | [] => [[]]
  | q :: qs => (intRange q.1 q.2).flatMap (fun x => (cellsAux qs).map (x :: ·))

/-- List of all cells of a box. -/
def Box.cells (b : Box) : List (List Int) :=
  cellsAux b.bounds

/-- Intersection of two boxes (hier::Box operator*), componentwise
max of lowers and min of uppers. -/
def Box.inter (a b : Box) : Box :=
  { bounds := a.bounds.zipWith (fun q r => (max q.1 r.1, min q.2 r.2)) b.bounds
    owner := a.owner
    lid := a.lid }

/-- Strict order on global box ids (owner rank, then local id), modelling
hier::BoxId::operator<. -/
def Box.idLt (a b : Box) : Bool :=
  decide (a.owner < b.owner) || (decide (a.owner = b.owner) && decide (a.lid < b.lid))

/-- Model of TreeLoadBalancer::BoxInTransit: current box, originating box
and the scalar work load carried. -/
structure BoxInTransit where
  d_box : Box
  d_orig_box : Box
  d_boxload : LoadType
deriving DecidableEq

/-- Embedding of TreeLoadBalancer::BoxInTransitMoreLoad::operator().
The source compares the cell counts of the two current boxes first; only
when they differ does it compare the loads, and otherwise it falls back to
the box id. -/
def BoxInTransitMoreLoad (a b : BoxInTransit) : Bool :=
  if a.d_box.size ≠ b.d_box.size then decide (a.d_boxload > b.d_boxload)
  else Box.idLt a.d_box b.d_box

/-- Comparator equivalence of two records: neither sorts before the other
(the equality notion used by the std::set underlying TransitSet). -/
def transitEquiv (a b : BoxInTransit) : Bool :=
  !BoxInTransitMoreLoad a b && !BoxInTransitMoreLoad b a

/-- The sorting relation of the TransitSet, as a decidable relation. -/
def moreLoadRel (a b : BoxInTransit) : Prop :=
  BoxInTransitMoreLoad a b = true

instance : DecidableRel moreLoadRel :=
  fun a b => decEq (BoxInTransitMoreLoad a b) true

/-- Embedding of TreeLoadBalancer::TransitSet: the ordered element list of
the underlying std::set together with the cached sum of loads. -/
structure TransitSet where
  d_set : List BoxInTransit
  d_sumload : LoadType
deriving DecidableEq

/-- The empty TransitSet (default constructor). -/
def TransitSet.mk0 : TransitSet :=
  { d_set := [], d_sumload := 0 }

/-- Cached sum accessor (TransitSet::getSumLoad). -/
def TransitSet.getSumLoad (s : TransitSet) : LoadType :=
  s.d_sumload

/-- Number of elements (TransitSet::size). -/
def TransitSet.size (s : TransitSet) : Nat :=
  s.d_set.length

/-- Emptiness test (TransitSet::empty). -/
def TransitSet.isEmpty (s : TransitSet) : Bool :=
  s.d_set.isEmpty

/-- Single element insertion (TransitSet::insert(value)): the std::set
drops the element exactly when an equivalent one is present, and the
cached sum is increased only when the insertion took place. -/
def TransitSet.insert (s : TransitSet) (x : BoxInTransit) : TransitSet × Bool :=
  if s.d_set.any (transitEquiv x) then (s, false)
  else ({ d_set := List.orderedInsert moreLoadRel x s.d_set
          d_sumload := s.d_sumload + x.d_boxload }, true)

/-- One raw std::set insertion used by the range insert: drop the element
when an equivalent one is present, otherwise place it in order. -/
def insRaw (l : List BoxInTransit) (x : BoxInTransit) : List BoxInTransit :=
  if l.any (transitEquiv x) then l else List.orderedInsert moreLoadRel x l

/-- Range insertion (TransitSet::insert(first,last)): the underlying set
absorbs the whole range, the cached sum is increased by the load of every
range element, and a final size check raises a fatal error (modelled as
none) when any element was silently dropped as a duplicate. -/
def TransitSet.insertRange (s : TransitSet) (r : List BoxInTransit) : Option TransitSet :=
  let tmp_size := s.d_set.length + r.length
  let new_set := r.foldl insRaw s.d_set
  let new_sum := s.d_sumload + (r.map (fun x => x.d_boxload)).sum
  if tmp_size ≠ new_set.length then none
  else some { d_set := new_set, d_sumload := new_sum }

/-- Erase through an iterator (TransitSet::erase(iterator)): the element
y pointed at is removed and its own load is subtracted. -/
def TransitSet.eraseIter (s : TransitSet) (y : BoxInTransit) : TransitSet :=
  { d_set := s.d_set.erase y, d_sumload := s.d_sumload - y.d_boxload }

/-- Erase by key (TransitSet::erase(key)): the elements equivalent to the
key are removed, and when anything was removed the cached sum is reduced
by the load carried by the KEY argument, not by the removed element. -/
def TransitSet.eraseKey (s : TransitSet) (k : BoxInTransit) : TransitSet × Nat :=
  let num_erased := s.d_set.countP (transitEquiv k)
  if num_erased ≠ 0 then
    ({ d_set := s.d_set.filter (fun y => !transitEquiv k y)
       d_sumload := s.d_sumload - k.d_boxload }, num_erased)
  else (s, 0)

/-- Reset to empty (TransitSet::clear). -/
def TransitSet.clear (_ : TransitSet) : TransitSet :=
  { d_set := [], d_sumload := 0 }

/-- Exchange contents and cached sums (TransitSet::swap). -/
def TransitSet.swap (a b : TransitSet) : TransitSet × TransitSet :=
  (b, a)

/-- Embedding of TreeLoadBalancer::computeLoad(const hier::Box&): the
uniform load of a box is its cell count. -/
def computeLoadBox (box : Box) : LoadType :=
  box.size

/-- Embedding of TreeLoadBalancer::computeLoad(box, restriction): the
uniform load of a box restricted to another box is the cell count of the
intersection. -/
def computeLoadRestricted (box restriction : Box) : LoadType :=
  (box.inter restriction).size

/-- Embedding of TreeLoadBalancer::computeLoad(const TransitSet&): the
naive sum of the loads of the contained records. -/
def computeLoadSet (transit_set : TransitSet) : LoadType :=
  (transit_set.d_set.map (fun bi => bi.d_boxload)).sum

/-- The cached-sum invariant of a TransitSet. -/
def sumInv (s : TransitSet) : Prop :=
  s.d_sumload = computeLoadSet s

/-- No element of the list is comparator-equivalent to a later one (what
a correctly used std::set maintains). -/
def noDupEquiv (l : List BoxInTransit) : Prop :=
  l.Pairwise (fun a b => transitEquiv a b = false)

/-- Embedding of TreeLoadBalancer::SubtreeData (the load accounting
fields; the traded work and flag fields are carried along unchanged). -/
structure SubtreeData where
  d_subtree_rank : Int
  d_num_procs : Int
  d_subtree_load_current : LoadType
  d_subtree_load_ideal : LoadType
  d_subtree_load_upperlimit : LoadType
  d_eff_num_procs : Int
  d_eff_load_current : LoadType
  d_eff_load_ideal : LoadType
  d_eff_load_upperlimit : LoadType
  d_work_traded : TransitSet
  d_wants_work_from_parent : Bool

/-- SubtreeData::surplus. -/
def SubtreeData.surplus (s : SubtreeData) : LoadType :=
  s.d_subtree_load_current - s.d_subtree_load_ideal

/-- SubtreeData::deficit. -/
def SubtreeData.deficit (s : SubtreeData) : LoadType :=
  s.d_subtree_load_ideal - s.d_subtree_load_current

/-- SubtreeData::effSurplus. -/
def SubtreeData.effSurplus (s : SubtreeData) : LoadType :=
  s.d_eff_load_current - s.d_eff_load_ideal

/-- SubtreeData::effDeficit. -/
def SubtreeData.effDeficit (s : SubtreeData) : LoadType :=
  s.d_eff_load_ideal - s.d_eff_load_current

/-- SubtreeData::excess. -/
def SubtreeData.excess (s : SubtreeData) : LoadType :=
  s.d_subtree_load_current - s.d_subtree_load_upperlimit

/-- SubtreeData::margin. -/
def SubtreeData.margin (s : SubtreeData) : LoadType :=
  s.d_subtree_load_upperlimit - s.d_subtree_load_current

/-- SubtreeData::effExcess. -/
def SubtreeData.effExcess (s : SubtreeData) : LoadType :=
  s.d_eff_load_current - s.d_eff_load_upperlimit

/-- SubtreeData::effMargin. -/
def SubtreeData.effMargin (s : SubtreeData) : LoadType :=
  s.d_eff_load_upperlimit - s.d_eff_load_current

/-- One mutating TransitSet operation, for reasoning about operation
sequences.  The operations act on a pair of sets so that swap (which
exchanges two sets) is expressible; the non-swap operations act on the
first component. -/
inductive TransitOp where
  | ins (x : BoxInTransit)
  | insRange (r : List BoxInTransit)
  | eraseIt (y : BoxInTransit)
  | eraseKey (k : BoxInTransit)
  | clear
  | swap

/-- Apply one operation to a pair of TransitSets.  An erase through an
iterator requires a valid iterator, so it is applied only when the
element is present; a range insert that hits the fatal duplicate error
leaves the state unchanged (the program aborts there, and such sequences
are rejected by goodOps below). -/
def applyOp (st : TransitSet × TransitSet) : TransitOp → TransitSet × TransitSet
  | .ins x => ((st.1.insert x).1, st.2)
  | .insRange r =>
      match st.1.insertRange r with
      | some s => (s, st.2)
      | none => st
  | .eraseIt y => (if y ∈ st.1.d_set then st.1.eraseIter y else st.1, st.2)
  | .eraseKey k => ((st.1.eraseKey k).1, st.2)
  | .clear => (st.1.clear, st.2)
  | .swap => TransitSet.swap st.1 st.2

/-- Apply a sequence of operations. -/
def applyOps (st : TransitSet × TransitSet) (ops : List TransitOp) : TransitSet × TransitSet :=
  ops.foldl applyOp st

/-- Whether one operation is well behaved at the given state: a range
insert must not hit the fatal duplicate error, and an erase by key must
match at most one element and only with a key carrying the load of the
element it removes. -/
def goodOp (st : TransitSet × TransitSet) : TransitOp → Bool
  | .insRange r => (st.1.insertRange r).isSome
  | .eraseKey k =>
      decide (st.1.d_set.countP (transitEquiv k) ≤ 1) &&
        st.1.d_set.all (fun y => !transitEquiv k y || decide (y.d_boxload = k.d_boxload))
  | _ => true

/-- Whether every operation of the sequence is well behaved at the state
where it executes. -/
def goodOps (st : TransitSet × TransitSet) : List TransitOp → Bool
  | [] => true
  | op :: ops => goodOp st op && goodOps (applyOp st op) ops

/-- Give a BoxInTransit to another owner rank, keeping geometry, origin
and load (ownership transfer by message passing along a tree edge). -/
def setOwner (x : BoxInTransit) (r : Int) : BoxInTransit :=
  { x with d_box := { x.d_box with owner := r } }

/-- Modelled from the spec: the body of loadBalanceBoxLevel is not under
src/ (only its declaration is).  Per the data-model section, BoxInTransit
records are created at balance start from the local boxes, ownership is
transferred exclusively by message passing along tree edges, and a cut
replaces a record by pieces that tile its box, each piece carrying its
cell count as load (uniform load model).  A step is one such ownership
transfer or one such cut applied somewhere in the global collection of
in-transit records. -/
inductive LBStep : List BoxInTransit → List BoxInTransit → Prop
  | move (l1 l2 : List BoxInTransit) (x : BoxInTransit) (r : Int) :
      LBStep (l1 ++ x :: l2) (l1 ++ setOwner x r :: l2)
  | cut (l1 l2 : List BoxInTransit) (x : BoxInTransit) (pieces : List BoxInTransit)
      (hx : x.d_boxload = computeLoadBox x.d_box)
      (hp : ∀ y ∈ pieces, y.d_boxload = computeLoadBox y.d_box)
      (htile : ∀ p, (pieces.map (fun y => y.d_box)).countP (fun b => b.hasCell p) =
        if x.d_box.hasCell p then 1 else 0) :
      LBStep (l1 ++ x :: l2) (l1 ++ (pieces ++ l2))

/-- Total load of a collection of in-transit records, summed over all
ranks. -/
def totalLoad (l : List BoxInTransit) : LoadType :=
  (l.map (fun x => x.d_boxload)).sum

/-- Total number of cells covered by a collection of in-transit records,
summed over all ranks. -/
def totalCells (l : List BoxInTransit) : Int :=
  (l.map (fun x => x.d_box.size)).sum

/-- Bursting over per-axis bounds: slice off the part of the bursty box
below the solid box and the part above it along the first axis, then
recurse over the remaining axes inside the middle slab. -/
def burstAux : List (Int × Int) → List (Int × Int) → List (List (Int × Int))
  | (bl, bh) :: bt, (sl, sh) :: st =>
      (if bl ≤ sl - 1 then [(bl, sl - 1) :: bt] else []) ++
      (if sh + 1 ≤ bh then [(sh + 1, bh) :: bt] else []) ++
      (burstAux bt st).map (fun t => (sl, sh) :: t)
  | _, _ => []

/-- Modelled from the spec: the body of burstBox is not under src/ (only
its declarations in BalanceBoxBreaker.h and TreeLoadBalancer.h are).  Per
the spec, given bursty containing solid it produces the minimal
rectilinear cover of the set difference as up to 2 times d axis-aligned
boxes by slicing along each face of solid in a fixed canonical axis
order. -/
def burstBox (bursty solid : Box) : List Box :=
  (burstAux bursty.bounds solid.bounds).map
    (fun bd => { bounds := bd, owner := bursty.owner, lid := bursty.lid })

/-- Replace the bounds at one axis. -/
def modifyAt : List (Int × Int) → Nat → ((Int × Int) → (Int × Int)) → List (Int × Int)
  | [], _, _ => []
  | q :: qs, 0, f => f q :: qs
  | q :: qs, n + 1, f => q :: modifyAt qs n f

/-- Lower bound of a box along an axis. -/
def axLo (b : Box) (a : Nat) : Int :=
  ((b.bounds.getD a (0, 0)).1)

/-- Upper bound of a box along an axis. -/
def axHi (b : Box) (a : Nat) : Int :=
  ((b.bounds.getD a (0, 0)).2)

/-- Modelled from the spec: the PartitioningParams consumed by
BalanceBoxBreaker are not under src/.  The minimum size, cut factor,
bad-interval and block-domain constraints enter the breaker only through
the per-axis set of bad cut planes they induce, so they are abstracted
into the bad-cut predicate; the penalty weights and the slenderness
threshold are the corresponding TreeLoadBalancer fields. -/
structure PartitioningParams where
  badCut : Nat → Int → Bool
  d_balance_penalty_wt : Int
  d_surface_penalty_wt : Int
  d_slender_penalty_wt : Int
  d_slender_penalty_threshold : Int

/-- A candidate break: the boxes broken off, the leftover boxes, and the
load broken off. -/
abbrev BreakCandidate := List Box × List Box × LoadType

/-- The lower part of a box cut at plane c along axis a (cells strictly
below the plane). -/
def lowerPiece (box : Box) (a : Nat) (c : Int) : Box :=
  { box with bounds := modifyAt box.bounds a (fun q => (q.1, c - 1)) }

/-- The upper part of a box cut at plane c along axis a (cells at or
above the plane). -/
def upperPiece (box : Box) (a : Nat) (c : Int) : Box :=
  { box with bounds := modifyAt box.bounds a (fun q => (c, q.2)) }

/-- Make the planar candidate for a cut at plane c along axis a: of the
two slabs, break off the one whose load is nearer the ideal. -/
def mkPlanarCandidate (box : Box) (a : Nat) (c : Int) (ideal : LoadType) : BreakCandidate :=
  let lower := lowerPiece box a c
  let upper := upperPiece box a c
  if |lower.size - ideal| ≤ |upper.size - ideal| then ([lower], [upper], lower.size)
  else ([upper], [lower], upper.size)

/-- All planar candidates: for each axis, every cut plane interior to the
box that is not a bad plane. -/
def planarCandidates (pp : PartitioningParams) (box : Box) (ideal : LoadType) :
    List BreakCandidate :=
  (List.range box.dim).flatMap (fun a =>
    ((intRange (axLo box a + 1) (axHi box a)).filter (fun c => !pp.badCut a c)).map
      (fun c => mkPlanarCandidate box a c ideal))

/-- All corner choices in d dimensions: for each axis, whether the corner
piece is anchored at the lower end. -/
def signLists : Nat → List (List Bool)
  | 0 => [[]]
  | n + 1 => (signLists n).flatMap (fun s => [true :: s, false :: s])

/-- Side length for the corner piece: the smallest positive extent whose
d-th power reaches the ideal load, capped by the longest box width. -/
def cubeLen (d : Nat) (ideal : LoadType) (maxw : Int) : Int :=
  (((intRange 1 maxw).filter (fun n => ideal ≤ n ^ d)).headD maxw)

/-- The corner sub-box anchored at the corner given by the signs, with
side length n clipped to the box. -/
def cornerPiece : List (Int × Int) → List Bool → Int → List (Int × Int)
  | (l, h) :: qs, s :: ss, n =>
      (if s then (l, min h (l + n - 1)) else (max l (h - n + 1), h)) :: cornerPiece qs ss n
  | _, _, _ => []

/-- Whether the cut planes a corner piece introduces are all good: on
each axis where the piece bound differs from the box bound, the plane
there must not be a bad plane. -/
def goodPlanes (pp : PartitioningParams) : Nat → List (Int × Int) → List (Int × Int) → Bool
  | _, [], _ => true
  | _, _ :: _, [] => true
  | a, q :: qs, w :: ws =>
      (decide (w.1 = q.1) || !pp.badCut a w.1) &&
      (decide (w.2 = q.2) || !pp.badCut a (w.2 + 1)) &&
      goodPlanes pp (a + 1) qs ws

/-- All cubic (corner-chop) candidates: for each corner of a nonempty
box, carve off the corner sub-box approximating the ideal volume, the
leftover being the burst of the box around it. -/
def cubicCandidates (pp : PartitioningParams) (box : Box) (ideal : LoadType) :
    List BreakCandidate :=
  if box.bounds.all (fun q => decide (q.1 ≤ q.2)) then
    let maxw := ((box.bounds.map (fun q => q.2 - q.1 + 1)).foldl max 1)
    let n := cubeLen box.dim ideal maxw
    ((signLists box.dim).map (fun s =>
        ({ bounds := cornerPiece box.bounds s n, owner := box.owner, lid := box.lid } : Box))
      ).filterMap (fun piece =>
        if goodPlanes pp 0 box.bounds piece.bounds then
          some ([piece], burstBox box piece, piece.size)
        else none)
  else []

/-- Surface area of a box: twice the sum over the axes of the products of
the other axis widths. -/
def surfaceAux : List (Int × Int) → Int
  | [] => 0
  | q :: qs => 2 * sizeAux qs + max 0 (q.2 - q.1 + 1) * surfaceAux qs

/-- Surface area of a list of boxes. -/
def computeBoxSurfaceArea (boxes : List Box) : Int :=
  (boxes.map (fun b => surfaceAux b.bounds)).sum

/-- Slenderness of a box, scaled by the shortest width: by how much the
longest width exceeds the threshold times the shortest width. -/
def slenderAux (thr : Int) (b : Box) : Int :=
  let ws := b.bounds.map (fun q => max 0 (q.2 - q.1 + 1))
  max 0 ((ws.foldl max 1) - thr * (ws.foldl min (ws.headD 1)))

/-- Composite penalty of a candidate, per the spec: weighted squares of
the imbalance, of the new surface area introduced by the cut, and of the
slenderness of the pieces (the surface term is left unnormalized and the
slenderness is scaled by the shortest width, keeping the arithmetic
integral). -/
def candPenalty (pp : PartitioningParams) (box : Box) (ideal : LoadType)
    (c : BreakCandidate) : Int :=
  let bal := |c.2.2 - ideal|
  let surf := computeBoxSurfaceArea (c.1 ++ c.2.1) - computeBoxSurfaceArea [box]
  let slen := ((c.1 ++ c.2.1).map (slenderAux pp.d_slender_penalty_threshold)).sum
  pp.d_balance_penalty_wt * bal * bal +
    pp.d_surface_penalty_wt * surf * surf +
    pp.d_slender_penalty_wt * slen * slen

/-- First element minimizing f (earlier elements win ties, implementing
the prefer-planar and prefer-lower-axis tie breaks through the
generation order). -/
def pickMin (f : BreakCandidate → Int) : List BreakCandidate → Option BreakCandidate
  | [] => none
  | x :: xs => some (xs.foldl (fun b y => if f y < f b then y else b) x)

/-- Modelled from the spec: the body of BalanceBoxBreaker::breakOffLoad
(equally TreeLoadBalancer::breakOffLoad) is not under src/, only its
declaration and contract.  Per the spec it enumerates planar and cubic
candidate cuts avoiding bad planes, keeps those whose broken-off load
lies in the requested band, and returns the one of lowest composite
penalty, or fails when no candidate qualifies. -/
def breakOffLoad (pp : PartitioningParams) (box : Box)
    (ideal_load low_load high_load : LoadType) : Option BreakCandidate :=
  let cands := (planarCandidates pp box ideal_load ++ cubicCandidates pp box ideal_load).filter
    (fun c => decide (low_load ≤ c.2.2) && decide (c.2.2 ≤ high_load))
  pickMin (candPenalty pp box ideal_load) cands

/-- Exact tiling: every cell of the target is covered by exactly one box
of the list and no box of the list covers a cell outside the target. -/
def tilesExactly (pieces : List Box) (target : Box) : Prop :=
  ∀ p : List Int, pieces.countP (fun b => b.hasCell p) = if target.hasCell p then 1 else 0

/-- Sum of the loads of a list of records. -/
def loadSum (l : List BoxInTransit) : LoadType :=
  (l.map (fun x => x.d_boxload)).sum

/-- Whether some element of the range is comparator-equivalent to an
element of the set contents. -/
def anyCollides (l r : List BoxInTransit) : Bool :=
  r.any (fun x => l.any (transitEquiv x))

/-- Whether two elements inside the range are comparator-equivalent to
each other. -/
def pairColl : List BoxInTransit → Bool
  | [] => false
  | x :: xs => xs.any (transitEquiv x) || pairColl xs

/-- A collision for the range insert: a range element equivalent to an
element already stored, or two equivalent elements inside the range. -/
def rangeCollides (l r : List BoxInTransit) : Bool :=
  anyCollides l r || pairColl r

/-- Collision freedom as a proposition: no range element is equivalent
to a stored element and no two range elements are equivalent. -/
def NoColl (l r : List BoxInTransit) : Prop :=
  (∀ x ∈ r, ∀ y ∈ l, transitEquiv x y = false) ∧
    r.Pairwise (fun a b => transitEquiv a b = false)

/-- Combined well-formedness of a TransitSet: the cached sum is correct
and no two stored elements are comparator-equivalent. -/
def fullInv (s : TransitSet) : Prop :=
  sumInv s ∧ noDupEquiv s.d_set

/-- A concrete one-dimensional two-cell record carrying the given load,
used in concrete evaluations. -/
def sampleBit (load : Int) : BoxInTransit :=
  ⟨⟨[(0, 1)], 0, 0⟩, ⟨[(0, 1)], 0, 0⟩, load⟩

/-- A concrete one-dimensional five-cell record of load 5, not
comparator-equivalent to any sampleBit. -/
def sampleBit2 : BoxInTransit :=
  ⟨⟨[(0, 4)], 0, 1⟩, ⟨[(0, 4)], 0, 1⟩, 5⟩

/-- A concrete singleton TransitSet holding sampleBit 2 with a correct
cached sum. -/
def sampleSet : TransitSet :=
  ⟨[sampleBit 2], 2⟩

/-- Concrete partitioning parameters: no bad cut planes, unit penalty
weights, slenderness threshold 3. -/
def samplePP : PartitioningParams :=
  ⟨fun _ _ => false, 1, 1, 1, 3⟩

/-- A concrete one-dimensional eight-cell box. -/
def sampleBox : Box :=
  ⟨[(0, 7)], 0, 0⟩

/-- A concrete well-behaved operation sequence exercising insertion,
erase by key and swap. -/
def sampleOps : List TransitOp :=
  [TransitOp.ins (sampleBit 2), TransitOp.ins sampleBit2,
   TransitOp.eraseKey (sampleBit 2), TransitOp.swap, TransitOp.clear]

theorem transitEquiv_symm (a b : BoxInTransit) : transitEquiv a b = transitEquiv b a := by
  simp [transitEquiv, Bool.and_comm]

theorem moreLoad_irrefl (a : BoxInTransit) : BoxInTransitMoreLoad a a = false := by
  simp [BoxInTransitMoreLoad, Box.idLt]

theorem transitEquiv_refl (a : BoxInTransit) : transitEquiv a a = true := by
  simp [transitEquiv, moreLoad_irrefl]

/-- C8: in SubtreeData, surplus is current minus ideal, deficit ideal
minus current, excess current minus upper limit, margin upper limit minus
current; the effective variants read the eff fields the same way; and
deficit, margin and their effective variants are the negations of
surplus, excess and theirs. -/
theorem C8_subtree_quantities (s : SubtreeData) :
    s.surplus = s.d_subtree_load_current - s.d_subtree_load_ideal ∧
    s.deficit = s.d_subtree_load_ideal - s.d_subtree_load_current ∧
    s.excess = s.d_subtree_load_current - s.d_subtree_load_upperlimit ∧
    s.margin = s.d_subtree_load_upperlimit - s.d_subtree_load_current ∧
    s.effSurplus = s.d_eff_load_current - s.d_eff_load_ideal ∧
    s.effDeficit = s.d_eff_load_ideal - s.d_eff_load_current ∧
    s.effExcess = s.d_eff_load_current - s.d_eff_load_upperlimit ∧
    s.effMargin = s.d_eff_load_upperlimit - s.d_eff_load_current ∧
    s.deficit = -s.surplus ∧
    s.margin = -s.excess ∧
    s.effDeficit = -s.effSurplus ∧
    s.effMargin = -s.effExcess := by
  refine ⟨rfl, rfl, rfl, rfl, rfl, rfl, rfl, rfl, ?_, ?_, ?_, ?_⟩ <;>
    simp only [SubtreeData.deficit, SubtreeData.surplus, SubtreeData.margin,
      SubtreeData.excess, SubtreeData.effDeficit, SubtreeData.effSurplus,
      SubtreeData.effMargin, SubtreeData.effExcess] <;> ring

/-- C1 counterexample: two records with equal loads, different box sizes
and ascending box ids.  The claimed comparator description makes the
comparator hold, but the code compares the box sizes first and therefore
compares the (equal) loads, returning false. -/
theorem C1_counterexample :
    ¬ (BoxInTransitMoreLoad
        ⟨⟨[(0, 1)], 0, 0⟩, ⟨[(0, 1)], 0, 0⟩, 5⟩
        ⟨⟨[(0, 2)], 0, 1⟩, ⟨[(0, 2)], 0, 1⟩, 5⟩ = true ↔
      ((⟨⟨[(0, 2)], 0, 1⟩, ⟨[(0, 2)], 0, 1⟩, 5⟩ : BoxInTransit).d_boxload <
          (⟨⟨[(0, 1)], 0, 0⟩, ⟨[(0, 1)], 0, 0⟩, 5⟩ : BoxInTransit).d_boxload ∨
        ((⟨⟨[(0, 1)], 0, 0⟩, ⟨[(0, 1)], 0, 0⟩, 5⟩ : BoxInTransit).d_boxload =
            (⟨⟨[(0, 2)], 0, 1⟩, ⟨[(0, 2)], 0, 1⟩, 5⟩ : BoxInTransit).d_boxload ∧
          Box.idLt ⟨[(0, 1)], 0, 0⟩ ⟨[(0, 2)], 0, 1⟩ = true))) := by
  decide

/-- C1 (amended): for records whose load equals the cell count of their
current box, the invariant the balancer maintains under the uniform load
model, the comparator holds iff the first record has the larger load, or
the loads are equal and the first box id is smaller.  For general records
the code compares loads only when the box sizes differ and otherwise
orders by box id. -/
theorem C1_comparator_uniform (a b : BoxInTransit)
    (ha : a.d_boxload = computeLoadBox a.d_box)
    (hb : b.d_boxload = computeLoadBox b.d_box) :
    BoxInTransitMoreLoad a b = true ↔
      (b.d_boxload < a.d_boxload ∨
        (a.d_boxload = b.d_boxload ∧ Box.idLt a.d_box b.d_box = true)) := by
  unfold BoxInTransitMoreLoad
  by_cases h : a.d_box.size = b.d_box.size
  · have hl : a.d_boxload = b.d_boxload := by
      rw [ha, hb]; simp [computeLoadBox, h]
    simp [h, hl]
  · have hl : a.d_boxload ≠ b.d_boxload := by
      rw [ha, hb]; simpa [computeLoadBox] using h
    simp [h, hl]

/-- C1 witness: the amended comparator description evaluated on two
concrete uniform-load records. -/
theorem C1_witness :
    ((⟨⟨[(0, 2)], 0, 0⟩, ⟨[(0, 2)], 0, 0⟩, 3⟩ : BoxInTransit).d_boxload =
        computeLoadBox (⟨[(0, 2)], 0, 0⟩ : Box)) ∧
    ((⟨⟨[(0, 1)], 0, 1⟩, ⟨[(0, 1)], 0, 1⟩, 2⟩ : BoxInTransit).d_boxload =
        computeLoadBox (⟨[(0, 1)], 0, 1⟩ : Box)) ∧
    (BoxInTransitMoreLoad
        ⟨⟨[(0, 2)], 0, 0⟩, ⟨[(0, 2)], 0, 0⟩, 3⟩
        ⟨⟨[(0, 1)], 0, 1⟩, ⟨[(0, 1)], 0, 1⟩, 2⟩ = true ↔
      ((⟨⟨[(0, 1)], 0, 1⟩, ⟨[(0, 1)], 0, 1⟩, 2⟩ : BoxInTransit).d_boxload <
          (⟨⟨[(0, 2)], 0, 0⟩, ⟨[(0, 2)], 0, 0⟩, 3⟩ : BoxInTransit).d_boxload ∨
        ((⟨⟨[(0, 2)], 0, 0⟩, ⟨[(0, 2)], 0, 0⟩, 3⟩ : BoxInTransit).d_boxload =
            (⟨⟨[(0, 1)], 0, 1⟩, ⟨[(0, 1)], 0, 1⟩, 2⟩ : BoxInTransit).d_boxload ∧
          Box.idLt ⟨[(0, 2)], 0, 0⟩ ⟨[(0, 1)], 0, 1⟩ = true))) :=
  ⟨by decide, by decide,
    C1_comparator_uniform _ _ (by decide) (by decide)⟩

theorem foldl_min_mem {α : Type} (f : α → Int) (x : α) (xs : List α) :
    xs.foldl (fun b y => if f y < f b then y else b) x ∈ x :: xs := by
  induction xs generalizing x with
  | nil => simp
  | cons y ys ih =>
      simp only [List.foldl_cons]
      by_cases hc : f y < f x
      · rw [if_pos hc]
        exact List.mem_cons_of_mem x (ih y)
      · rw [if_neg hc]
        rcases List.mem_cons.mp (ih x) with h1 | h1
        · rw [h1]
          exact List.mem_cons_self _ _
        · exact List.mem_cons_of_mem x (List.mem_cons_of_mem y h1)

theorem perm_filter_of_countP_one (l : List BoxInTransit) (pr : BoxInTransit → Bool)
    (y : BoxInTransit) (hy : y ∈ l) (hp : pr y = true) (hc : l.countP pr = 1) :
    l.Perm (y :: l.filter (fun a => !pr a)) := by
  induction l with
  | nil => cases hy
  | cons a t ih =>
      by_cases ha : pr a = true
      · have ht : t.countP pr = 0 := by
          simp [List.countP_cons, ha] at hc
          exact List.countP_eq_zero.mpr (fun b hb => by simp [hc b hb])
        have hyt : y = a := by
          rcases List.mem_cons.mp hy with h | h
          · exact h
          · exact absurd hp (by simpa using (List.countP_eq_zero.mp ht) y h)
        subst hyt
        have hft : t.filter (fun a => !pr a) = t := by
          apply List.filter_eq_self.mpr
          intro b hb
          simpa using (List.countP_eq_zero.mp ht) b hb
        simp [List.filter_cons, ha, hft]
      · have haf : pr a = false := by
          revert ha; cases pr a <;> simp
        have hyt : y ∈ t := by
          rcases List.mem_cons.mp hy with h | h
          · subst h; exact absurd hp ha
          · exact h
        have hc2 : t.countP pr = 1 := by
          simpa [List.countP_cons, haf] using hc
        have hrec := ih hyt hc2
        have hstep : (a :: t).Perm (a :: y :: t.filter (fun b => !pr b)) :=
          List.Perm.cons a hrec
        have hswap : (a :: y :: t.filter (fun b => !pr b)).Perm
            (y :: a :: t.filter (fun b => !pr b)) := List.Perm.swap y a _
        have hfc : (a :: t).filter (fun b => !pr b) = a :: t.filter (fun b => !pr b) := by
          simp [List.filter_cons, haf]
        rw [hfc]
        exact hstep.trans hswap

theorem loadSum_perm {l1 l2 : List BoxInTransit} (h : l1.Perm l2) :
    (l1.map (fun x => x.d_boxload)).sum = (l2.map (fun x => x.d_boxload)).sum :=
  (h.map (fun x => x.d_boxload)).sum_eq

/-- C9: inserting a record comparator-equal to a present element returns
false and leaves the set and its cached sum unchanged; hence inserting
the same record twice leaves exactly the state of inserting it once. -/
theorem C9_insert_idempotent (s : TransitSet) (x y : BoxInTransit)
    (hy : y ∈ s.d_set) (he : transitEquiv x y = true) :
    s.insert x = (s, false) ∧
    (∀ (t : TransitSet) (z : BoxInTransit),
      ((t.insert z).1.insert z).1 = (t.insert z).1) := by
  constructor
  · have : s.d_set.any (transitEquiv x) = true := List.any_eq_true.mpr ⟨y, hy, he⟩
    simp [TransitSet.insert, this]
  · intro t z
    by_cases h : t.d_set.any (transitEquiv z) = true
    · simp [TransitSet.insert, h]
    · have h2 : (List.orderedInsert moreLoadRel z t.d_set).any (transitEquiv z) = true :=
        List.any_eq_true.mpr ⟨z, (List.mem_orderedInsert _).mpr (Or.inl rfl), transitEquiv_refl z⟩
      simp [TransitSet.insert, h, h2]

/-- C9 witness: a singleton scenario where the inserted record is
comparator-equal to the stored one. -/
theorem C9_witness :
    (sampleBit 2 ∈ sampleSet.d_set) ∧
    transitEquiv (sampleBit 7) (sampleBit 2) = true ∧
    (sampleSet.insert (sampleBit 7) = (sampleSet, false) ∧
    (∀ (t : TransitSet) (z : BoxInTransit),
      ((t.insert z).1.insert z).1 = (t.insert z).1)) :=
  ⟨by decide, by decide,
    C9_insert_idempotent sampleSet (sampleBit 7) (sampleBit 2) (by decide) (by decide)⟩

/-- C10: erase-by-key subtracts the load of the key argument, not the
load of the removed element; when one element matches the key, the new
cached sum is the old one minus the key load while the naive sum drops by
the element load, so the cached-sum invariant survives exactly when the
two loads agree; when nothing matches, set and cached sum are
unchanged. -/
theorem C10_eraseKey (s : TransitSet) (k y : BoxInTransit)
    (hy : y ∈ s.d_set) (he : transitEquiv k y = true)
    (hu : s.d_set.countP (transitEquiv k) = 1) :
    (s.eraseKey k).1.d_sumload = s.d_sumload - k.d_boxload ∧
    computeLoadSet (s.eraseKey k).1 = computeLoadSet s - y.d_boxload ∧
    (s.eraseKey k).2 = 1 ∧
    (sumInv s → (sumInv (s.eraseKey k).1 ↔ k.d_boxload = y.d_boxload)) ∧
    (∀ (t : TransitSet) (q : BoxInTransit),
      (∀ z ∈ t.d_set, transitEquiv q z = false) → t.eraseKey q = (t, 0)) := by
  have hperm := perm_filter_of_countP_one s.d_set (transitEquiv k) y hy he hu
  have hsum := loadSum_perm hperm
  rw [List.map_cons, List.sum_cons] at hsum
  have hnaive : computeLoadSet
      ⟨s.d_set.filter (fun a => !transitEquiv k a), s.d_sumload - k.d_boxload⟩ =
      computeLoadSet s - y.d_boxload := by
    simp only [computeLoadSet]
    linarith
  have hek : s.eraseKey k =
      (⟨s.d_set.filter (fun a => !transitEquiv k a), s.d_sumload - k.d_boxload⟩, 1) := by
    simp [TransitSet.eraseKey, hu]
  refine ⟨by rw [hek], by rw [hek]; exact hnaive, by rw [hek], ?_, ?_⟩
  · intro hs
    rw [hek]
    simp only [sumInv] at hs ⊢
    rw [hnaive]
    constructor
    · intro h2
      have h3 : s.d_sumload - k.d_boxload = s.d_sumload - y.d_boxload := by
        rw [h2, hs]
      linarith
    · intro h2
      rw [← hs, h2]
  · intro t q hz
    have hcz : t.d_set.countP (transitEquiv q) = 0 := List.countP_eq_zero.mpr (by
      intro z hzz
      simp [hz z hzz])
    simp [TransitSet.eraseKey, hcz]

/-- C10 witness: a key comparator-equal to the stored element but with a
different load; the cached sum drops by the key load 7, not by the
stored load 2. -/
theorem C10_witness :
    (sampleBit 2 ∈ sampleSet.d_set) ∧
    transitEquiv (sampleBit 7) (sampleBit 2) = true ∧
    (sampleSet.eraseKey (sampleBit 7)).1.d_sumload =
      sampleSet.d_sumload - (sampleBit 7).d_boxload :=
  ⟨by decide, by decide,
    (C10_eraseKey sampleSet (sampleBit 7) (sampleBit 2)
      (by decide) (by decide) (by decide)).1⟩

theorem foldIns_le (r : List BoxInTransit) (l : List BoxInTransit) :
    (r.foldl insRaw l).length ≤ l.length + r.length := by
  induction r generalizing l with
  | nil => simp
  | cons x t ih =>
      simp only [List.foldl_cons]
      by_cases h : l.any (transitEquiv x) = true
      · have := ih l
        simp only [insRaw, h, if_true, List.length_cons]
        omega
      · have := ih (List.orderedInsert moreLoadRel x l)
        simp only [insRaw, h, if_false, Bool.false_eq_true, List.length_cons]
        rw [List.orderedInsert_length] at this
        omega

theorem foldIns_noColl (r l : List BoxInTransit) (h : NoColl l r) :
    (r.foldl insRaw l).length = l.length + r.length ∧
    (∀ x ∈ r, x ∈ r.foldl insRaw l) ∧
    (∀ y ∈ l, y ∈ r.foldl insRaw l) ∧
    loadSum (r.foldl insRaw l) = loadSum l + loadSum r ∧
    (noDupEquiv l → noDupEquiv (r.foldl insRaw l)) := by
  induction r generalizing l with
  | nil => simp [loadSum]
  | cons x t ih =>
      obtain ⟨h1, h2⟩ := h
      have hx : ∀ y ∈ l, transitEquiv x y = false :=
        fun y hy => h1 x (List.mem_cons_self _ _) y hy
      have hany : l.any (transitEquiv x) = false := by
        apply List.any_eq_false.mpr
        intro y hy
        simp [hx y hy]
      have hins : insRaw l x = List.orderedInsert moreLoadRel x l := by
        simp [insRaw, hany]
      have hperm : (List.orderedInsert moreLoadRel x l).Perm (x :: l) :=
        List.perm_orderedInsert _ _ _
      have hpx : ∀ a b, transitEquiv a b = false → transitEquiv b a = false := by
        intro a b hab
        rw [transitEquiv_symm]
        exact hab
      have hnc : NoColl (List.orderedInsert moreLoadRel x l) t := by
        constructor
        · intro z hz y hy
          rcases (List.mem_orderedInsert _).mp hy with h3 | h3
          · subst h3
            exact hpx _ _ ((List.pairwise_cons.mp h2).1 z hz)
          · exact h1 z (List.mem_cons_of_mem x hz) y h3
        · exact (List.pairwise_cons.mp h2).2
      obtain ⟨ihl, ihr, ihsub, ihsum, ihdup⟩ := ih (List.orderedInsert moreLoadRel x l) hnc
      simp only [List.foldl_cons, hins]
      refine ⟨?_, ?_, ?_, ?_, ?_⟩
      · rw [ihl, List.orderedInsert_length]
        simp
        omega
      · intro z hz
        rcases List.mem_cons.mp hz with h3 | h3
        · subst h3
          exact ihsub z ((List.mem_orderedInsert _).mpr (Or.inl rfl))
        · exact ihr z h3
      · intro y hy
        exact ihsub y ((List.mem_orderedInsert _).mpr (Or.inr hy))
      · rw [ihsum]
        have := loadSum_perm hperm
        simp only [loadSum, List.map_cons, List.sum_cons] at this ⊢
        rw [this]
        ring
      · intro hd
        apply ihdup
        rw [noDupEquiv, List.Perm.pairwise_iff (fun {a b} hab => hpx a b hab) hperm]
        exact List.pairwise_cons.mpr ⟨hx, hd⟩

theorem foldIns_coll (r l : List BoxInTransit) (h : ¬NoColl l r) :
    (r.foldl insRaw l).length < l.length + r.length := by
  induction r generalizing l with
  | nil =>
      exfalso
      exact h ⟨fun x hx => absurd hx (List.not_mem_nil x), List.Pairwise.nil⟩
  | cons x t ih =>
      simp only [List.foldl_cons]
      by_cases hany : l.any (transitEquiv x) = true
      · have hle := foldIns_le t l
        simp only [insRaw, hany, if_true]
        simp only [List.length_cons]
        omega
      · have hins : insRaw l x = List.orderedInsert moreLoadRel x l := by
          simp [insRaw, hany]
        have hx : ∀ y ∈ l, transitEquiv x y = false := by
          intro y hy
          have := List.any_eq_false.mp (Bool.not_eq_true _ |>.mp hany) y hy
          simpa using this
        have hnc : ¬NoColl (List.orderedInsert moreLoadRel x l) t := by
          intro hcon
          apply h
          obtain ⟨c1, c2⟩ := hcon
          constructor
          · intro z hz y hy
            rcases List.mem_cons.mp hz with h3 | h3
            · subst h3
              exact hx y hy
            · exact c1 z h3 y ((List.mem_orderedInsert _).mpr (Or.inr hy))
          · apply List.pairwise_cons.mpr
            refine ⟨?_, c2⟩
            intro z hz
            rw [transitEquiv_symm]
            exact c1 z hz x ((List.mem_orderedInsert _).mpr (Or.inl rfl))
        have := ih (List.orderedInsert moreLoadRel x l) hnc
        rw [List.orderedInsert_length] at this
        rw [hins]
        simp only [List.length_cons]
        omega

theorem pairColl_eq_false (r : List BoxInTransit) :
    pairColl r = false ↔ r.Pairwise (fun a b => transitEquiv a b = false) := by
  induction r with
  | nil => simp [pairColl]
  | cons x t ih =>
      simp only [pairColl, Bool.or_eq_false_iff, List.pairwise_cons, List.any_eq_false]
      rw [ih]
      constructor
      · rintro ⟨ha, hb⟩
        exact ⟨fun z hz => by simpa using ha z hz, hb⟩
      · rintro ⟨ha, hb⟩
        exact ⟨fun z hz => by simp [ha z hz], hb⟩

theorem rangeCollides_eq_false (l r : List BoxInTransit) :
    rangeCollides l r = false ↔ NoColl l r := by
  simp only [rangeCollides, Bool.or_eq_false_iff, anyCollides, List.any_eq_false,
    Bool.not_eq_true, pairColl_eq_false, NoColl]

/-- C5: the range insert never silently drops a duplicate.  It fails
with the fatal error exactly when some range element collides with a
stored element or with another range element; when no collision occurs it
inserts every range element, keeps the stored ones, and grows the cached
sum by the total load of the range. -/
theorem C5_range_insert (s : TransitSet) (r : List BoxInTransit) :
    (s.insertRange r = none ↔ rangeCollides s.d_set r = true) ∧
    (rangeCollides s.d_set r = false →
      ∃ t, s.insertRange r = some t ∧
        t.d_sumload = s.d_sumload + loadSum r ∧
        (∀ x ∈ r, x ∈ t.d_set) ∧ (∀ y ∈ s.d_set, y ∈ t.d_set) ∧
        computeLoadSet t = computeLoadSet s + loadSum r) := by
  by_cases hcol : rangeCollides s.d_set r = true
  · have hnc : ¬NoColl s.d_set r := by
      intro hcon
      rw [← rangeCollides_eq_false s.d_set r] at hcon
      rw [hcon] at hcol
      cases hcol
    have hlt := foldIns_coll r s.d_set hnc
    constructor
    · simp only [TransitSet.insertRange, hcol, iff_true]
      have : s.d_set.length + r.length ≠ (r.foldl insRaw s.d_set).length := by omega
      simp [this]
    · intro hfalse
      rw [hfalse] at hcol
      cases hcol
  · have hF : rangeCollides s.d_set r = false := by
      revert hcol
      cases rangeCollides s.d_set r <;> simp
    have hnc : NoColl s.d_set r := (rangeCollides_eq_false s.d_set r).mp hF
    obtain ⟨hlen, hmemr, hmeml, hsum, _⟩ := foldIns_noColl r s.d_set hnc
    have heq : s.insertRange r =
        some ⟨r.foldl insRaw s.d_set, s.d_sumload + loadSum r⟩ := by
      simp only [TransitSet.insertRange, loadSum]
      have : ¬(s.d_set.length + r.length ≠ (r.foldl insRaw s.d_set).length) := by omega
      simp [this]
    constructor
    · rw [heq, hF]
      simp
    · intro _
      refine ⟨_, heq, rfl, hmemr, hmeml, ?_⟩
      simp only [computeLoadSet]
      have hs2 : (List.map (fun bi => bi.d_boxload) (r.foldl insRaw s.d_set)).sum =
          loadSum (r.foldl insRaw s.d_set) := rfl
      rw [hs2, hsum]
      rfl

/-- C5 witness: a collision-free concrete range insert into a singleton
set. -/
theorem C5_witness :
    rangeCollides sampleSet.d_set [sampleBit2] = false ∧
    (∃ t, sampleSet.insertRange [sampleBit2] = some t ∧
      t.d_sumload = sampleSet.d_sumload + loadSum [sampleBit2] ∧
      (∀ x ∈ [sampleBit2], x ∈ t.d_set) ∧ (∀ y ∈ sampleSet.d_set, y ∈ t.d_set) ∧
      computeLoadSet t = computeLoadSet sampleSet + loadSum [sampleBit2]) :=
  ⟨by decide, (C5_range_insert sampleSet [sampleBit2]).2 (by decide)⟩

theorem insert_fullInv (s : TransitSet) (x : BoxInTransit) (h : fullInv s) :
    fullInv (s.insert x).1 := by
  obtain ⟨hs, hd⟩ := h
  by_cases hany : s.d_set.any (transitEquiv x) = true
  · simpa [TransitSet.insert, hany] using And.intro hs hd
  · have hanyf : s.d_set.any (transitEquiv x) = false := by
      revert hany; cases s.d_set.any (transitEquiv x) <;> simp
    have hperm : (List.orderedInsert moreLoadRel x s.d_set).Perm (x :: s.d_set) :=
      List.perm_orderedInsert _ _ _
    have hsum := loadSum_perm hperm
    simp only [List.map_cons, List.sum_cons] at hsum
    have hne : ∀ y ∈ s.d_set, transitEquiv x y = false := by
      intro y hy
      simpa using List.any_eq_false.mp hanyf y hy
    constructor
    · simp only [TransitSet.insert, hany, if_false, Bool.false_eq_true, sumInv,
        computeLoadSet] at hs ⊢
      linarith
    · simp only [TransitSet.insert, hany, if_false, Bool.false_eq_true, noDupEquiv] at hd ⊢
      rw [List.Perm.pairwise_iff (fun {a b} hab => by rw [transitEquiv_symm]; exact hab) hperm]
      exact List.pairwise_cons.mpr ⟨hne, hd⟩

theorem insertRange_fullInv (s : TransitSet) (r : List BoxInTransit) (t : TransitSet)
    (ht : s.insertRange r = some t) (h : fullInv s) : fullInv t := by
  obtain ⟨hs, hd⟩ := h
  by_cases hnc : NoColl s.d_set r
  · obtain ⟨hlen, _, _, hsum, hdup⟩ := foldIns_noColl r s.d_set hnc
    have hne : ¬(s.d_set.length + r.length ≠ (r.foldl insRaw s.d_set).length) := by omega
    have heq : s.insertRange r =
        some ⟨r.foldl insRaw s.d_set, s.d_sumload + loadSum r⟩ := by
      simp only [TransitSet.insertRange, loadSum]
      simp [hne]
    rw [heq] at ht
    have ht2 := Option.some.inj ht
    subst ht2
    constructor
    · simp only [sumInv, computeLoadSet]
      have hs2 : (List.map (fun bi => bi.d_boxload) (r.foldl insRaw s.d_set)).sum =
          loadSum (r.foldl insRaw s.d_set) := rfl
      rw [hs2, hsum]
      simp only [sumInv, computeLoadSet] at hs
      have hs3 : loadSum s.d_set = (List.map (fun bi => bi.d_boxload) s.d_set).sum := rfl
      rw [hs3]
      linarith
    · exact hdup hd
  · exfalso
    have hlt := foldIns_coll r s.d_set hnc
    have hne : s.d_set.length + r.length ≠ (r.foldl insRaw s.d_set).length := by omega
    simp [TransitSet.insertRange, hne] at ht

theorem eraseIter_fullInv (s : TransitSet) (y : BoxInTransit) (hy : y ∈ s.d_set)
    (h : fullInv s) : fullInv (s.eraseIter y) := by
  obtain ⟨hs, hd⟩ := h
  have hperm : s.d_set.Perm (y :: s.d_set.erase y) := List.perm_cons_erase hy
  have hsum := loadSum_perm hperm
  simp only [List.map_cons, List.sum_cons] at hsum
  constructor
  · simp only [sumInv, computeLoadSet, TransitSet.eraseIter] at hs ⊢
    linarith
  · simp only [noDupEquiv, TransitSet.eraseIter]
    exact List.Pairwise.sublist (List.erase_sublist _ _) hd

theorem eraseKey_fullInv (s : TransitSet) (k : BoxInTransit)
    (hc : s.d_set.countP (transitEquiv k) ≤ 1)
    (hl : ∀ y ∈ s.d_set, transitEquiv k y = true → y.d_boxload = k.d_boxload)
    (h : fullInv s) : fullInv (s.eraseKey k).1 := by
  obtain ⟨hs, hd⟩ := h
  rcases Nat.eq_zero_or_pos (s.d_set.countP (transitEquiv k)) with h0 | hpos
  · simpa [TransitSet.eraseKey, h0] using And.intro hs hd
  · have h1 : s.d_set.countP (transitEquiv k) = 1 := by omega
    obtain ⟨y, hy, hpy⟩ := List.countP_pos_iff.mp hpos
    have hperm := perm_filter_of_countP_one s.d_set (transitEquiv k) y hy hpy h1
    have hload : y.d_boxload = k.d_boxload := hl y hy hpy
    have hsum := loadSum_perm hperm
    simp only [List.map_cons, List.sum_cons] at hsum
    have hek : s.eraseKey k = (⟨s.d_set.filter (fun a => !transitEquiv k a),
        s.d_sumload - k.d_boxload⟩, 1) := by
      simp [TransitSet.eraseKey, h1]
    rw [hek]
    constructor
    · simp only [sumInv, computeLoadSet] at hs ⊢
      linarith
    · simp only [noDupEquiv]
      exact List.Pairwise.sublist (List.filter_sublist _) hd

theorem mk0_fullInv : fullInv TransitSet.mk0 :=
  ⟨by simp [sumInv, computeLoadSet, TransitSet.mk0], List.Pairwise.nil⟩

theorem applyOp_inv (st : TransitSet × TransitSet) (op : TransitOp)
    (h1 : fullInv st.1) (h2 : fullInv st.2) (hg : goodOp st op = true) :
    fullInv (applyOp st op).1 ∧ fullInv (applyOp st op).2 := by
  cases op with
  | ins x => exact ⟨insert_fullInv st.1 x h1, h2⟩
  | insRange r =>
      simp only [applyOp]
      cases hm : st.1.insertRange r with
      | none => exact ⟨h1, h2⟩
      | some t => exact ⟨insertRange_fullInv st.1 r t hm h1, h2⟩
  | eraseIt y =>
      simp only [applyOp]
      by_cases hy : y ∈ st.1.d_set
      · simpa [hy] using And.intro (eraseIter_fullInv st.1 y hy h1) h2
      · simpa [hy] using And.intro h1 h2
  | eraseKey k =>
      simp only [goodOp, Bool.and_eq_true, decide_eq_true_eq, List.all_eq_true] at hg
      obtain ⟨hc, hl⟩ := hg
      refine ⟨eraseKey_fullInv st.1 k hc ?_ h1, h2⟩
      intro y hy he
      have h3 := hl y hy
      simp only [he, Bool.not_true, Bool.false_or, decide_eq_true_eq] at h3
      exact h3
  | clear => exact ⟨mk0_fullInv, h2⟩
  | swap => exact ⟨h2, h1⟩

theorem applyOps_inv (ops : List TransitOp) (st : TransitSet × TransitSet)
    (h1 : fullInv st.1) (h2 : fullInv st.2) (hg : goodOps st ops = true) :
    fullInv (applyOps st ops).1 ∧ fullInv (applyOps st ops).2 := by
  induction ops generalizing st with
  | nil => exact ⟨h1, h2⟩
  | cons op ops ih =>
      simp only [goodOps, Bool.and_eq_true] at hg
      obtain ⟨hgo, hgs⟩ := hg
      obtain ⟨k1, k2⟩ := applyOp_inv st op h1 h2 hgo
      simpa only [applyOps, List.foldl_cons] using ih (applyOp st op) k1 k2 hgs

/-- C2 counterexample: starting from empty, inserting a record of load 2
and erasing it through a comparator-equal key of load 7 leaves a cached
sum of -5 while the naive sum of the (now empty) contents is 0, so the
claimed invariant fails for this operation sequence. -/
theorem C2_counterexample :
    ¬ ((applyOps (TransitSet.mk0, TransitSet.mk0)
        [TransitOp.ins (sampleBit 2), TransitOp.eraseKey (sampleBit 7)]).1.getSumLoad =
      computeLoadSet (applyOps (TransitSet.mk0, TransitSet.mk0)
        [TransitOp.ins (sampleBit 2), TransitOp.eraseKey (sampleBit 7)]).1) := by
  decide

/-- C2 (amended): starting from two empty TransitSets, after any sequence
of insert, range insert, erase by iterator, erase by key, clear and swap
in which every range insert completes without the fatal duplicate error
and every erase by key matches at most one element and carries the load
of the element it removes, the cached sum of each set equals the naive
sum of its contents.  The load condition on erase keys is automatic
whenever comparator-equal records carry equal loads, as under the uniform
load model. -/
theorem C2_sum_invariant (ops : List TransitOp)
    (hg : goodOps (TransitSet.mk0, TransitSet.mk0) ops = true) :
    (applyOps (TransitSet.mk0, TransitSet.mk0) ops).1.getSumLoad =
      computeLoadSet (applyOps (TransitSet.mk0, TransitSet.mk0) ops).1 ∧
    (applyOps (TransitSet.mk0, TransitSet.mk0) ops).2.getSumLoad =
      computeLoadSet (applyOps (TransitSet.mk0, TransitSet.mk0) ops).2 := by
  obtain ⟨a, b⟩ := applyOps_inv ops (TransitSet.mk0, TransitSet.mk0)
    mk0_fullInv mk0_fullInv hg
  exact ⟨a.1, b.1⟩

/-- C2 witness: a concrete well-behaved sequence of five operations. -/
theorem C2_witness :
    goodOps (TransitSet.mk0, TransitSet.mk0) sampleOps = true ∧
    ((applyOps (TransitSet.mk0, TransitSet.mk0) sampleOps).1.getSumLoad =
      computeLoadSet (applyOps (TransitSet.mk0, TransitSet.mk0) sampleOps).1 ∧
    (applyOps (TransitSet.mk0, TransitSet.mk0) sampleOps).2.getSumLoad =
      computeLoadSet (applyOps (TransitSet.mk0, TransitSet.mk0) sampleOps).2) :=
  ⟨by decide, C2_sum_invariant sampleOps (by decide)⟩

theorem mem_intRange (x l h : Int) : x ∈ intRange l h ↔ l ≤ x ∧ x ≤ h := by
  unfold intRange
  rw [List.mem_map]
  constructor
  · rintro ⟨n, hn, rfl⟩
    rw [List.mem_range] at hn
    omega
  · rintro ⟨h1, h2⟩
    refine ⟨(x - l).toNat, ?_, ?_⟩
    · rw [List.mem_range]
      omega
    · omega

theorem nodup_intRange (l h : Int) : (intRange l h).Nodup := by
  unfold intRange
  refine List.Nodup.map ?_ (List.nodup_range _)
  intro a b hab
  simpa using hab

theorem length_intRange (l h : Int) : ((intRange l h).length : Int) = max 0 (h - l + 1) := by
  unfold intRange
  rw [List.length_map, List.length_range]
  omega

theorem mem_cellsAux (qs : List (Int × Int)) (p : List Int) :
    p ∈ cellsAux qs ↔ inCells p qs = true := by
  induction qs generalizing p with
  | nil => cases p <;> simp [cellsAux, inCells]
  | cons q qs ih =>
      cases p with
      | nil => simp [cellsAux, List.mem_flatMap, inCells]
      | cons x xs =>
          simp only [cellsAux, List.mem_flatMap, List.mem_map, inCells,
            Bool.and_eq_true, decide_eq_true_eq]
          constructor
          · rintro ⟨a, ha, t, htt, heq⟩
            have h1 : a = x := by injection heq
            have h2 : t = xs := by injection heq
            subst h1
            subst h2
            obtain ⟨hb1, hb2⟩ := (mem_intRange a q.1 q.2).mp ha
            exact ⟨⟨hb1, hb2⟩, (ih t).mp htt⟩
          · rintro ⟨⟨hb1, hb2⟩, hrec⟩
            exact ⟨x, (mem_intRange x q.1 q.2).mpr ⟨hb1, hb2⟩, xs, (ih xs).mpr hrec, rfl⟩

theorem nodup_cellsAux (qs : List (Int × Int)) : (cellsAux qs).Nodup := by
  induction qs with
  | nil => simp [cellsAux]
  | cons q qs ih =>
      simp only [cellsAux]
      rw [List.nodup_flatMap]
      constructor
      · intro x _
        exact ih.map (fun a b hab => by injection hab)
      · apply List.Pairwise.imp ?_ (nodup_intRange q.1 q.2)
        intro a b hab
        simp only [Function.onFun, List.Disjoint]
        rintro c hca hcb
        obtain ⟨t1, _, rfl⟩ := List.mem_map.mp hca
        obtain ⟨t2, _, heq⟩ := List.mem_map.mp hcb
        injection heq.symm with h1 h2
        exact hab h1

theorem length_cellsAux (qs : List (Int × Int)) :
    ((cellsAux qs).length : Int) = sizeAux qs := by
  induction qs with
  | nil => simp [cellsAux, sizeAux]
  | cons q qs ih =>
      have haux : ∀ L : List Int,
          ((L.flatMap (fun x => (cellsAux qs).map (x :: ·))).length : Int) =
            (L.length : Int) * ((cellsAux qs).length : Int) := by
        intro L
        induction L with
        | nil => simp
        | cons a t iht =>
            simp only [List.flatMap_cons, List.length_append, List.length_map,
              List.length_cons]
            push_cast
            push_cast at iht
            rw [iht]
            ring
      show ((cellsAux (q :: qs)).length : Int) = sizeAux (q :: qs)
      simp only [cellsAux, sizeAux]
      rw [haux (intRange q.1 q.2), length_intRange, ih]

theorem inCells_inter (a b : List (Int × Int)) (p : List Int) (hl : a.length = b.length) :
    inCells p (a.zipWith (fun q r => (max q.1 r.1, min q.2 r.2)) b) =
      (inCells p a && inCells p b) := by
  induction a generalizing b p with
  | nil =>
      cases b with
      | nil => cases p <;> simp [inCells]
      | cons r rs => simp at hl
  | cons q qs ih =>
      cases b with
      | nil => simp at hl
      | cons r rs =>
          cases p with
          | nil => simp [inCells]
          | cons x xs =>
              simp only [List.zipWith_cons_cons, inCells]
              rw [ih rs xs (by simpa using hl)]
              rw [Bool.eq_iff_iff]
              simp only [Bool.and_eq_true, decide_eq_true_eq, max_le_iff, le_min_iff]
              tauto

/-- C7: the uniform load of a box is its exact cell count (the number of
distinct cells it contains), and the restricted load is the exact cell
count of the intersection, whose cells are exactly the common cells. -/
theorem C7_computeLoad (box restriction : Box) (hd : box.dim = restriction.dim) :
    computeLoadBox box = ((box.cells).length : Int) ∧
    box.cells.Nodup ∧
    (∀ p, p ∈ box.cells ↔ box.hasCell p = true) ∧
    computeLoadRestricted box restriction = (((box.inter restriction).cells).length : Int) ∧
    (∀ p, (box.inter restriction).hasCell p = true ↔
      (box.hasCell p = true ∧ restriction.hasCell p = true)) := by
  refine ⟨(length_cellsAux box.bounds).symm, nodup_cellsAux _,
    fun p => mem_cellsAux _ p, (length_cellsAux _).symm, ?_⟩
  intro p
  show inCells p (Box.inter box restriction).bounds = true ↔ _
  have hb : (Box.inter box restriction).bounds =
      box.bounds.zipWith (fun q r => (max q.1 r.1, min q.2 r.2)) restriction.bounds := rfl
  rw [hb, inCells_inter box.bounds restriction.bounds p hd]
  simp [Box.hasCell]

/-- C7 witness: the load computations evaluated on two concrete
two-dimensional boxes. -/
theorem C7_witness :
    Box.dim ⟨[(0, 1), (2, 5)], 0, 0⟩ = Box.dim ⟨[(1, 3), (0, 9)], 0, 1⟩ ∧
    computeLoadBox ⟨[(0, 1), (2, 5)], 0, 0⟩ =
      ((Box.cells ⟨[(0, 1), (2, 5)], 0, 0⟩).length : Int) :=
  ⟨by decide,
    (C7_computeLoad ⟨[(0, 1), (2, 5)], 0, 0⟩ ⟨[(1, 3), (0, 9)], 0, 1⟩ (by decide)).1⟩

theorem countP_and_const {α : Type} (c : Bool) (g : α → Bool) (l : List α) :
    l.countP (fun t => c && g t) = if c = true then l.countP g else 0 := by
  cases c <;> simp

theorem burstAux_shape (q w : Int × Int) (bt st : List (Int × Int)) (t : List (Int × Int))
    (ht : t ∈ burstAux (q :: bt) (w :: st)) : ∃ y ys, t = y :: ys := by
  simp only [burstAux, List.mem_append, List.mem_map] at ht
  rcases ht with (h | h) | h
  · by_cases hc : q.1 ≤ w.1 - 1
    · rw [if_pos hc] at h
      simp only [List.mem_singleton] at h
      exact ⟨_, _, h⟩
    · rw [if_neg hc] at h
      cases h
  · by_cases hc : w.2 + 1 ≤ q.2
    · rw [if_pos hc] at h
      simp only [List.mem_singleton] at h
      exact ⟨_, _, h⟩
    · rw [if_neg hc] at h
      cases h
  · obtain ⟨ys, _, rfl⟩ := h
    exact ⟨_, _, rfl⟩

theorem burstAux_length (bb sb : List (Int × Int)) :
    (burstAux bb sb).length ≤ 2 * bb.length := by
  induction bb generalizing sb with
  | nil => cases sb <;> simp [burstAux]
  | cons q bt ih =>
      cases sb with
      | nil => simp [burstAux]
      | cons w st =>
          have h := ih st
          simp only [burstAux, List.length_append, List.length_map, List.length_cons]
          by_cases hA : q.1 ≤ w.1 - 1 <;> by_cases hB : w.2 + 1 ≤ q.2 <;>
            simp only [hA, hB, if_pos, if_neg, if_true, if_false, not_false_iff,
              List.length_cons, List.length_nil] <;> omega

theorem burstAux_tiling (bb sb : List (Int × Int))
    (h : List.Forall₂ (fun q w => q.1 ≤ w.1 ∧ w.1 ≤ w.2 ∧ w.2 ≤ q.2) bb sb) (p : List Int) :
    (burstAux bb sb).countP (inCells p) +
      (if inCells p sb = true then 1 else 0) =
      (if inCells p bb = true then 1 else 0) := by
  induction h generalizing p with
  | nil =>
      cases p <;> simp [burstAux, inCells]
  | @cons q w bt st hqw hrest ih =>
      obtain ⟨h1, h2, h3⟩ := hqw
      cases p with
      | nil =>
          have hz : (burstAux (q :: bt) (w :: st)).countP (inCells []) = 0 := by
            apply List.countP_eq_zero.mpr
            intro t ht
            obtain ⟨y, ys, rfl⟩ := burstAux_shape q w bt st t ht
            simp [inCells]
          rw [hz]
          simp [inCells]
      | cons x xs =>
          have IH := ih xs
          have hsA : List.countP (inCells (x :: xs))
              (if q.1 ≤ w.1 - 1 then [(q.1, w.1 - 1) :: bt] else []) =
              if (q.1 ≤ x ∧ x ≤ w.1 - 1) ∧ inCells xs bt = true then 1 else 0 := by
            by_cases hA : q.1 ≤ w.1 - 1
            · rw [if_pos hA]
              simp [List.countP_cons, inCells]
            · rw [if_neg hA]
              simp only [List.countP_nil]
              split_ifs with hC
              · exfalso
                obtain ⟨⟨c1, c2⟩, _⟩ := hC
                omega
              · rfl
          have hsB : List.countP (inCells (x :: xs))
              (if w.2 + 1 ≤ q.2 then [(w.2 + 1, q.2) :: bt] else []) =
              if (w.2 + 1 ≤ x ∧ x ≤ q.2) ∧ inCells xs bt = true then 1 else 0 := by
            by_cases hB : w.2 + 1 ≤ q.2
            · rw [if_pos hB]
              simp [List.countP_cons, inCells]
            · rw [if_neg hB]
              simp only [List.countP_nil]
              split_ifs with hC
              · exfalso
                obtain ⟨⟨c1, c2⟩, _⟩ := hC
                omega
              · rfl
          have hcomp : (inCells (x :: xs) ∘ (fun t => (w.1, w.2) :: t)) =
              (fun t => (decide (w.1 ≤ x) && decide (x ≤ w.2)) && inCells xs t) := by
            funext t
            simp [Function.comp, inCells]
          simp only [burstAux, List.countP_append]
          rw [hsA, hsB, List.countP_map, hcomp,
            countP_and_const (decide (w.1 ≤ x) && decide (x ≤ w.2)) (inCells xs)]
          simp only [inCells, Bool.and_eq_true, decide_eq_true_eq]
          by_cases hbt : inCells xs bt = true <;> by_cases hst : inCells xs st = true <;>
            simp only [hbt, hst, Bool.false_eq_true, and_true, and_false, if_true, if_false,
              eq_self_iff_true] at IH ⊢ <;>
            split_ifs <;> omega

theorem pairwise_disjoint_of_countP_le (l : List Box)
    (hc : ∀ p, l.countP (fun b => b.hasCell p) ≤ 1) :
    l.Pairwise (fun b1 b2 => ∀ p, ¬(b1.hasCell p = true ∧ b2.hasCell p = true)) := by
  induction l with
  | nil => exact List.Pairwise.nil
  | cons b t ih =>
      refine List.pairwise_cons.mpr ⟨?_, ih ?_⟩
      · intro c hct p hcon
        obtain ⟨hbp, hcp⟩ := hcon
        have hpos : 0 < t.countP (fun b => b.hasCell p) :=
          List.countP_pos_iff.mpr ⟨c, hct, hcp⟩
        have h2 := hc p
        rw [List.countP_cons] at h2
        simp only [hbp, eq_self_iff_true, if_true, if_pos] at h2
        omega
      · intro p
        have h2 := hc p
        rw [List.countP_cons] at h2
        omega

theorem burstBox_tiling (bursty solid : Box)
    (h : List.Forall₂ (fun q w => q.1 ≤ w.1 ∧ w.1 ≤ w.2 ∧ w.2 ≤ q.2)
      bursty.bounds solid.bounds) (p : List Int) :
    (burstBox bursty solid).countP (fun b => b.hasCell p) +
      (if solid.hasCell p = true then 1 else 0) =
      (if bursty.hasCell p = true then 1 else 0) := by
  have hcnt : (burstBox bursty solid).countP (fun b => b.hasCell p) =
      (burstAux bursty.bounds solid.bounds).countP (inCells p) := by
    unfold burstBox
    rw [List.countP_map]
    congr 1
  rw [hcnt]
  exact burstAux_tiling bursty.bounds solid.bounds h p

/-- C6: the burst of a bursty box around a contained nonempty solid box
yields at most 2 times d pieces which, together with the solid box, cover
the bursty box exactly, every cell covered once; in particular the pieces
are pairwise disjoint and each is disjoint from the solid box. -/
theorem C6_burst (bursty solid : Box)
    (h : List.Forall₂ (fun q w => q.1 ≤ w.1 ∧ w.1 ≤ w.2 ∧ w.2 ≤ q.2)
      bursty.bounds solid.bounds) :
    (burstBox bursty solid).length ≤ 2 * bursty.dim ∧
    (∀ p, (burstBox bursty solid).countP (fun b => b.hasCell p) +
      (if solid.hasCell p = true then 1 else 0) =
      (if bursty.hasCell p = true then 1 else 0)) ∧
    (burstBox bursty solid).Pairwise
      (fun b1 b2 => ∀ p, ¬(b1.hasCell p = true ∧ b2.hasCell p = true)) ∧
    (∀ b ∈ burstBox bursty solid, ∀ p, ¬(b.hasCell p = true ∧ solid.hasCell p = true)) := by
  have htile : ∀ p, (burstBox bursty solid).countP (fun b => b.hasCell p) +
      (if solid.hasCell p = true then 1 else 0) =
      (if bursty.hasCell p = true then 1 else 0) :=
    burstBox_tiling bursty solid h
  have hle : ∀ p, (burstBox bursty solid).countP (fun b => b.hasCell p) ≤ 1 := by
    intro p
    have := htile p
    split_ifs at this <;> omega
  refine ⟨?_, htile, pairwise_disjoint_of_countP_le _ hle, ?_⟩
  · have := burstAux_length bursty.bounds solid.bounds
    simpa [burstBox, Box.dim] using this
  · intro b hb p hcon
    obtain ⟨hbp, hsp⟩ := hcon
    have hpos : 0 < (burstBox bursty solid).countP (fun b => b.hasCell p) :=
      List.countP_pos_iff.mpr ⟨b, hb, hbp⟩
    have h5 := htile p
    simp only [hsp, eq_self_iff_true, if_true] at h5
    split_ifs at h5
    omega

/-- C6 witness: a concrete two-dimensional burst of an 8 by 8 box around
an interior 3 by 3 solid box. -/
theorem C6_witness :
    List.Forall₂ (fun q w => q.1 ≤ w.1 ∧ w.1 ≤ w.2 ∧ w.2 ≤ q.2)
      (Box.bounds ⟨[(0, 7), (0, 7)], 0, 0⟩) (Box.bounds ⟨[(2, 4), (3, 5)], 0, 1⟩) ∧
    (burstBox ⟨[(0, 7), (0, 7)], 0, 0⟩ ⟨[(2, 4), (3, 5)], 0, 1⟩).length ≤
      2 * Box.dim ⟨[(0, 7), (0, 7)], 0, 0⟩ := by
  have hf : List.Forall₂ (fun q w : Int × Int => q.1 ≤ w.1 ∧ w.1 ≤ w.2 ∧ w.2 ≤ q.2)
      [(0, 7), (0, 7)] [(2, 4), (3, 5)] :=
    List.Forall₂.cons (by omega) (List.Forall₂.cons (by omega) List.Forall₂.nil)
  exact ⟨hf, (C6_burst ⟨[(0, 7), (0, 7)], 0, 0⟩ ⟨[(2, 4), (3, 5)], 0, 1⟩ hf).1⟩

theorem tiling_sum_sizes (pieces : List Box) (target : Box)
    (h : ∀ p, pieces.countP (fun b => b.hasCell p) =
      if target.hasCell p = true then 1 else 0) :
    (pieces.map Box.size).sum = target.size := by
  have hle : ∀ p, pieces.countP (fun b => b.hasCell p) ≤ 1 := by
    intro p
    rw [h p]
    split_ifs <;> omega
  have hnd : (pieces.flatMap (fun b => cellsAux b.bounds)).Nodup := by
    rw [List.nodup_flatMap]
    refine ⟨fun b _ => nodup_cellsAux b.bounds, ?_⟩
    apply (pairwise_disjoint_of_countP_le pieces hle).imp
    intro b1 b2 hdis c hc1 hc2
    exact hdis c ⟨(mem_cellsAux b1.bounds c).mp hc1, (mem_cellsAux b2.bounds c).mp hc2⟩
  have hmem : ∀ p, p ∈ pieces.flatMap (fun b => cellsAux b.bounds) ↔
      p ∈ cellsAux target.bounds := by
    intro p
    rw [List.mem_flatMap, mem_cellsAux]
    constructor
    · rintro ⟨b, hb, hpb⟩
      have hpos : 0 < pieces.countP (fun b => b.hasCell p) :=
        List.countP_pos_iff.mpr ⟨b, hb, (mem_cellsAux b.bounds p).mp hpb⟩
      have h2 := h p
      split_ifs at h2 with ht
      · exact ht
      · omega
    · intro hpt
      have hpt2 : target.hasCell p = true := hpt
      have h2 := h p
      rw [if_pos hpt2] at h2
      obtain ⟨b, hb, hbp⟩ := List.countP_pos_iff.mp (by omega : 0 < pieces.countP
        (fun b => b.hasCell p))
      exact ⟨b, hb, (mem_cellsAux b.bounds p).mpr hbp⟩
  have hperm : (pieces.flatMap (fun b => cellsAux b.bounds)).Perm (cellsAux target.bounds) :=
    (List.perm_ext_iff_of_nodup hnd (nodup_cellsAux target.bounds)).mpr hmem
  have hlen := hperm.length_eq
  rw [List.length_flatMap] at hlen
  have hsum : ∀ bs : List Box, (bs.map Box.size).sum =
      ((bs.map (List.length ∘ fun b => cellsAux b.bounds)).sum : Int) := by
    intro bs
    induction bs with
    | nil => simp
    | cons b t ih =>
        simp only [List.map_cons, List.sum_cons, Function.comp]
        push_cast
        rw [ih]
        have hb : Box.size b = ((cellsAux b.bounds).length : Int) :=
          (length_cellsAux b.bounds).symm
        rw [hb]
        push_cast
        ring
  rw [hsum, hlen]
  exact length_cellsAux target.bounds

theorem lbstep_conserves (s t : List BoxInTransit) (h : LBStep s t) :
    totalLoad t = totalLoad s ∧ totalCells t = totalCells s := by
  cases h with
  | move l1 l2 x r =>
      constructor
      · simp [totalLoad, setOwner, List.map_append, List.sum_append]
      · simp only [totalCells, List.map_append, List.sum_append, List.map_cons,
          List.sum_cons]
        have hb : Box.size (setOwner x r).d_box = Box.size x.d_box := rfl
        rw [hb]
  | cut l1 l2 x pieces hx hp htile =>
      have hsz : ((pieces.map (fun y => y.d_box)).map Box.size).sum = x.d_box.size :=
        tiling_sum_sizes (pieces.map (fun y => y.d_box)) x.d_box htile
      rw [List.map_map] at hsz
      have hld : (pieces.map (fun y => y.d_boxload)).sum = x.d_boxload := by
        have hmc : pieces.map (fun y => y.d_boxload) =
            pieces.map (Box.size ∘ fun y => y.d_box) := by
          apply List.map_congr_left
          intro y hy
          exact hp y hy
        rw [hmc, hsz, hx]
        rfl
      constructor
      · simp only [totalLoad, List.map_append, List.sum_append, List.map_cons,
          List.sum_cons, hld]
      · simp only [totalCells, List.map_append, List.sum_append, List.map_cons,
          List.sum_cons]
        have hsz2 : (pieces.map (fun y => Box.size y.d_box)).sum = Box.size x.d_box := hsz
        rw [hsz2]

/-- C4: over any sequence of the redistribution steps the spec allows,
ownership transfers along tree edges and cuts replacing a record by
pieces tiling its box, the total load summed over all ranks and the total
number of covered cells are both conserved. -/
theorem C4_conservation (s t : List BoxInTransit)
    (h : Relation.ReflTransGen LBStep s t) :
    totalLoad t = totalLoad s ∧ totalCells t = totalCells s := by
  induction h with
  | refl => exact ⟨rfl, rfl⟩
  | tail _ hstep ih =>
      obtain ⟨l1, l2⟩ := lbstep_conserves _ _ hstep
      exact ⟨l1.trans ih.1, l2.trans ih.2⟩

/-- C4 witness: one concrete ownership transfer conserves the totals. -/
theorem C4_witness :
    Relation.ReflTransGen LBStep [sampleBit 2] [setOwner (sampleBit 2) 3] ∧
    (totalLoad [setOwner (sampleBit 2) 3] = totalLoad [sampleBit 2] ∧
      totalCells [setOwner (sampleBit 2) 3] = totalCells [sampleBit 2]) := by
  have hstep : LBStep [sampleBit 2] [setOwner (sampleBit 2) 3] :=
    LBStep.move [] [] (sampleBit 2) 3
  exact ⟨Relation.ReflTransGen.single hstep,
    C4_conservation _ _ (Relation.ReflTransGen.single hstep)⟩

theorem pickMin_mem (f : BreakCandidate → Int) (l : List BreakCandidate)
    (c : BreakCandidate) (h : pickMin f l = some c) : c ∈ l := by
  cases l with
  | nil => cases h
  | cons x xs =>
      simp only [pickMin, Option.some.injEq] at h
      rw [← h]
      exact foldl_min_mem f x xs

theorem modifyAt_split_tiling (bd : List (Int × Int)) (a : Nat) (c : Int) (p : List Int)
    (ha : a < bd.length)
    (hlo : (bd.get ⟨a, ha⟩).1 ≤ c) (hhi : c ≤ (bd.get ⟨a, ha⟩).2 + 1) :
    (if inCells p (modifyAt bd a (fun q => (q.1, c - 1))) = true then 1 else 0) +
      (if inCells p (modifyAt bd a (fun q => (c, q.2))) = true then 1 else 0) =
      (if inCells p bd = true then 1 else 0) := by
  induction bd generalizing a p with
  | nil => exact absurd ha (by simp)
  | cons q qs ih =>
      cases a with
      | zero =>
          have hlo2 : q.1 ≤ c := hlo
          have hhi2 : c ≤ q.2 + 1 := hhi
          cases p with
          | nil => simp [modifyAt, inCells]
          | cons x xs =>
              simp only [modifyAt, inCells, Bool.and_eq_true, decide_eq_true_eq]
              by_cases hr : inCells xs qs = true <;>
                simp only [hr, Bool.false_eq_true, and_true, and_false,
                  eq_self_iff_true, if_false, if_true] <;>
                (try split_ifs) <;> omega
      | succ n =>
          have ha2 : n < qs.length := Nat.lt_of_succ_lt_succ ha
          have hlo2 : (qs.get ⟨n, ha2⟩).1 ≤ c := hlo
          have hhi2 : c ≤ (qs.get ⟨n, ha2⟩).2 + 1 := hhi
          cases p with
          | nil => simp [modifyAt, inCells]
          | cons x xs =>
              have ihx := ih n xs ha2 hlo2 hhi2
              simp only [modifyAt, inCells, Bool.and_eq_true, decide_eq_true_eq]
              by_cases hh : q.1 ≤ x ∧ x ≤ q.2
              · simp only [hh, true_and]
                exact ihx
              · simp only [hh, false_and, if_false]

theorem planar_cand_tiling (pp : PartitioningParams) (box : Box) (ideal : LoadType)
    (cand : BreakCandidate) (hc : cand ∈ planarCandidates pp box ideal) (p : List Int) :
    (cand.1 ++ cand.2.1).countP (fun b => b.hasCell p) =
      if box.hasCell p = true then 1 else 0 := by
  simp only [planarCandidates, List.mem_flatMap, List.mem_map, List.mem_filter] at hc
  obtain ⟨a, ha, cpl, hcc, rfl⟩ := hc
  obtain ⟨hcr, _⟩ := hcc
  rw [List.mem_range] at ha
  rw [mem_intRange] at hcr
  have hget : box.bounds.getD a (0, 0) = box.bounds.get ⟨a, ha⟩ :=
    List.getD_eq_get box.bounds (0, 0) ha
  have hlo : (box.bounds.get ⟨a, ha⟩).1 ≤ cpl := by
    have := hcr.1
    rw [axLo, hget] at this
    omega
  have hhi : cpl ≤ (box.bounds.get ⟨a, ha⟩).2 + 1 := by
    have := hcr.2
    rw [axHi, hget] at this
    omega
  have hkey := modifyAt_split_tiling box.bounds a cpl p ha hlo hhi
  have hAB : ∀ b1 b2 : Box,
      List.countP (fun b => b.hasCell p) [b1, b2] =
        (if b1.hasCell p = true then 1 else 0) + (if b2.hasCell p = true then 1 else 0) := by
    intro b1 b2
    simp only [List.countP_cons, List.countP_nil]
    omega
  have hcases :
      (mkPlanarCandidate box a cpl ideal).1 ++ (mkPlanarCandidate box a cpl ideal).2.1 =
        [lowerPiece box a cpl, upperPiece box a cpl] ∨
      (mkPlanarCandidate box a cpl ideal).1 ++ (mkPlanarCandidate box a cpl ideal).2.1 =
        [upperPiece box a cpl, lowerPiece box a cpl] := by
    unfold mkPlanarCandidate
    dsimp only
    split_ifs <;> simp
  rcases hcases with he | he <;> rw [he, hAB] <;>
    simp only [Box.hasCell, lowerPiece, upperPiece] at hkey ⊢ <;>
    split_ifs at hkey ⊢ <;> omega

theorem signLists_length (n : Nat) (s : List Bool) (hs : s ∈ signLists n) :
    s.length = n := by
  induction n generalizing s with
  | zero =>
      simp only [signLists, List.mem_singleton] at hs
      subst hs
      rfl
  | succ m ih =>
      simp only [signLists, List.mem_flatMap] at hs
      obtain ⟨t, ht, hmem⟩ := hs
      have hlen := ih t ht
      simp only [List.mem_cons, List.mem_singleton, List.not_mem_nil, or_false] at hmem
      rcases hmem with h | h <;> subst h <;> simp [hlen]

theorem cubeLen_pos (d : Nat) (ideal maxw : Int) (hm : 1 ≤ maxw) :
    1 ≤ cubeLen d ideal maxw := by
  unfold cubeLen
  cases hf : (intRange 1 maxw).filter (fun n => decide (ideal ≤ n ^ d)) with
  | nil => simpa [hf] using hm
  | cons z zs =>
      have hz : z ∈ (intRange 1 maxw).filter (fun n => decide (ideal ≤ n ^ d)) := by
        rw [hf]
        exact List.mem_cons_self _ _
      have hz2 := (List.mem_filter.mp hz).1
      rw [mem_intRange] at hz2
      simpa [hf] using hz2.1

theorem foldl_max_ge (l : List Int) (a : Int) : a ≤ l.foldl max a := by
  induction l generalizing a with
  | nil => simp
  | cons x t ih =>
      simp only [List.foldl_cons]
      exact le_trans (le_max_left a x) (ih (max a x))

theorem cornerPiece_bounds (bb : List (Int × Int)) (ss : List Bool) (n : Int)
    (hb : ∀ q ∈ bb, q.1 ≤ q.2) (hn : 1 ≤ n) (hl : ss.length = bb.length) :
    List.Forall₂ (fun q w => q.1 ≤ w.1 ∧ w.1 ≤ w.2 ∧ w.2 ≤ q.2) bb (cornerPiece bb ss n) := by
  induction bb generalizing ss with
  | nil =>
      cases ss with
      | nil => exact List.Forall₂.nil
      | cons s st => simp at hl
  | cons q qs ih =>
      cases ss with
      | nil => simp at hl
      | cons s st =>
          simp only [cornerPiece]
          refine List.Forall₂.cons ?_
            (ih st (fun q hq => hb q (List.mem_cons_of_mem _ hq)) (by simpa using hl))
          have hq := hb q (List.mem_cons_self _ _)
          by_cases hs : s = true <;>
            simp only [hs, if_true, if_false, Bool.false_eq_true] <;>
            refine ⟨?_, ?_, ?_⟩ <;> omega

theorem cubic_cand_tiling (pp : PartitioningParams) (box : Box) (ideal : LoadType)
    (cand : BreakCandidate) (hc : cand ∈ cubicCandidates pp box ideal) (p : List Int) :
    (cand.1 ++ cand.2.1).countP (fun b => b.hasCell p) =
      if box.hasCell p = true then 1 else 0 := by
  unfold cubicCandidates at hc
  by_cases hne : box.bounds.all (fun q => decide (q.1 ≤ q.2)) = true
  · rw [if_pos hne] at hc
    simp only [List.mem_filterMap, List.mem_map] at hc
    obtain ⟨piece, ⟨s, hs, hpiece⟩, hgood⟩ := hc
    split_ifs at hgood with hg
    · have hcand := Option.some.inj hgood
      have hn1 : (1 : Int) ≤
          ((box.bounds.map (fun q => q.2 - q.1 + 1)).foldl max 1) :=
        foldl_max_ge _ 1
      have hslen : s.length = box.bounds.length := signLists_length box.dim s hs
      have hball : ∀ q ∈ box.bounds, q.1 ≤ q.2 := by
        intro q hq
        have := List.all_eq_true.mp hne q hq
        simpa using this
      have hf2 : List.Forall₂ (fun q w => q.1 ≤ w.1 ∧ w.1 ≤ w.2 ∧ w.2 ≤ q.2)
          box.bounds piece.bounds := by
        rw [← hpiece]
        exact cornerPiece_bounds box.bounds s _ hball
          (cubeLen_pos box.dim ideal _ hn1) hslen
      have hbt := burstBox_tiling box piece hf2 p
      rw [← hcand]
      simp only [List.cons_append, List.nil_append, List.countP_cons]
      omega
  · rw [if_neg hne] at hc
    cases hc

/-- C3: whenever the spec-modelled breakOffLoad succeeds, the broken-off
load lies inside the requested band, and the multiset union of the
breakoff and leftover boxes tiles the input box exactly: every cell of
the box is covered by exactly one output box and no output box covers a
cell outside it. -/
theorem C3_breakOffLoad (pp : PartitioningParams) (box : Box)
    (ideal_load low_load high_load : LoadType) (bo lf : List Box) (brk : LoadType)
    (hlow : 0 < low_load) (hlh : low_load ≤ high_load)
    (h : breakOffLoad pp box ideal_load low_load high_load = some (bo, lf, brk)) :
    (low_load ≤ brk ∧ brk ≤ high_load) ∧ tilesExactly (bo ++ lf) box := by
  unfold breakOffLoad at h
  have hmem := pickMin_mem _ _ _ h
  rw [List.mem_filter] at hmem
  obtain ⟨hmm, hband⟩ := hmem
  simp only [Bool.and_eq_true, decide_eq_true_eq] at hband
  refine ⟨hband, ?_⟩
  rw [List.mem_append] at hmm
  intro p
  rcases hmm with hp | hp
  · exact planar_cand_tiling pp box ideal_load _ hp p
  · exact cubic_cand_tiling pp box ideal_load _ hp p

/-- C3 witness: breaking a load of 3 with band 2 to 5 off a concrete
one-dimensional eight-cell box. -/
theorem C3_witness :
    (0 : LoadType) < 2 ∧ (2 : LoadType) ≤ 5 ∧
    breakOffLoad samplePP sampleBox 3 2 5 =
      some ([⟨[(0, 2)], 0, 0⟩], [⟨[(3, 7)], 0, 0⟩], 3) ∧
    (((2 : LoadType) ≤ 3 ∧ (3 : LoadType) ≤ 5) ∧
      tilesExactly ([⟨[(0, 2)], 0, 0⟩] ++ [⟨[(3, 7)], 0, 0⟩]) sampleBox) :=
  ⟨by decide, by decide, by decide,
    C3_breakOffLoad samplePP sampleBox 3 2 5 [⟨[(0, 2)], 0, 0⟩] [⟨[(3, 7)], 0, 0⟩] 3
      (by decide) (by decide) (by decide)⟩

end SAMRAIMesh
